import Mathlib

/-!
# Radix conversion (lab04/numberrepsol.c)

A shallow embedding of the four functions of `numberrepsol.c`:
`validate_number`, `convert_to_decimal`, `decimal_to_base` and `convert_base`.

* A C string is a `List Char`; a `char *` argument is an `Option (List Char)`,
  `none` being the null pointer.
* `uint64_t` and `size_t` values are natural numbers, reduced modulo `2 ^ 64`
  wherever the C arithmetic can wrap (`size_t` is taken to be 64 bits wide).
* `exit(1)` and the undefined operations (division by zero, reading past the
  end of `allowed_chars`) are the `error` results of `Except Error`.
* The `while` loop of `decimal_to_base` takes a bound on its iterations
  (`fuel`); running into the bound is the result `Error.OutOfFuel`.
-/

namespace NumberRep

/-- Abnormal outcomes. The first three are the `exit(1)` paths of
`validate_number`, told apart by the message printed; the others are
operations of `decimal_to_base` that C leaves undefined, and the iteration
bound of its loop. -/
inductive Error where
  /-- Line 34: "Base %d is too large". -/
  | InvalidBase
  /-- Line 38: "Number is null". -/
  | NullNumeral
  /-- Line 48: "Number %s is invalid in base %d". -/
  | InvalidDigit
  /-- Lines 108-109: `number / base` and `number % base` with `base == 0`. -/
  | DivByZero
  /-- Line 110: `allowed_chars[r]` with `r >= MAX_BASE`. -/
  | OutOfBounds
  /-- The loop of lines 106-118 was still running when the bound was reached. -/
  | OutOfFuel
  deriving DecidableEq

deriving instance DecidableEq for Except

/-- Line 8: `#define MAX_BASE 36`. -/
def MAX_BASE : Nat := 36

/-- Line 14: the glyph table; the glyph at index `i` stands for the digit `i`. -/
def allowed_chars : List Char :=
  ['0', '1', '2', '3', '4', '5', '6', '7', '8', '9',
   'A', 'B', 'C', 'D', 'E', 'F', 'G', 'H', 'I', 'J',
   'K', 'L', 'M', 'N', 'O', 'P', 'Q', 'R', 'S', 'T',
   'U', 'V', 'W', 'X', 'Y', 'Z']

/-- Number of values of a `uint64_t` (and of a `size_t`). -/
def UINT64_SIZE : Nat := 2 ^ 64

/-- Lines 44-47: the inner loop of `validate_number` for the character `c`;
`j` runs over `0 .. base - 1` and `valid` starts at 0. -/
def digit_valid (c : Char) (base : Nat) : Bool :=
  (List.range base).foldl (fun valid j => valid || allowed_chars[j]? == some c) false

/-- Lines 43-52: the outer loop of `validate_number`, over the characters of
the string from left to right; the first character that is not valid ends the
program. -/
def validate_chars (base : Nat) : List Char → Except Error Unit
  | [] => .ok ()
  | c :: cs => if digit_valid c base then validate_chars base cs else .error .InvalidDigit

/-- Lines 33-53. -/
def validate_number (number : Option (List Char)) (base : Nat) : Except Error Unit :=
  if base > MAX_BASE then .error .InvalidBase
  else
    match number with
    | none => .error .NullNumeral
    | some s => validate_chars base s

/-- Lines 74-80: scan of the table from index `j` on; the first index whose
glyph is `c`, and `(size_t) -1` when the scan ends without a match. -/
def digit_lookup (c : Char) : Nat → List Char → Nat
  | _, [] => UINT64_SIZE - 1
  | j, a :: rest => if a == c then j else digit_lookup c (j + 1) rest

/-- Lines 74-80 for one character: the scan over the whole table. -/
def decimal_value (c : Char) : Nat := digit_lookup c 0 allowed_chars

/-- Lines 73-83: the loop of `convert_to_decimal`. The list holds the
characters still to be read, rightmost first; the pair is
`(result, power_of_base)`. -/
def convert_loop (base : Nat) : List Char → Nat × Nat → Nat × Nat
  | [], acc => acc
  | c :: cs, (result, power_of_base) =>
    convert_loop base cs
      ((result + (decimal_value c * power_of_base) % UINT64_SIZE) % UINT64_SIZE,
       (power_of_base * base) % UINT64_SIZE)

/-- Lines 67-86. -/
def convert_to_decimal (number : Option (List Char)) (base : Nat) : Except Error Nat :=
  match validate_number number base with
  | .error e => .error e
  | .ok () =>
    match number with
    | none => .error .NullNumeral
    | some s => .ok (convert_loop base s.reverse (0, 1)).1

/-- The variables of the loop of `decimal_to_base`. `reversed` holds the
glyphs written so far, `reversed[0]` first. -/
structure EncState where
  number : Nat
  reversed : List Char
  length : Nat
  allocated_space : Nat
  deriving DecidableEq

/-- Lines 106-118: the digit-extraction loop, run for at most `fuel`
iterations. -/
def encode_loop : Nat → Nat → EncState → Except Error EncState
  | fuel, base, s =>
    if s.number = 0 then .ok s
    else
      match fuel with
      | 0 => .error .OutOfFuel
      | fuel + 1 =>
        if base = 0 then .error .DivByZero
        else
          let q := s.number / base
          let r := s.number % base
          match allowed_chars[r]? with
          | none => .error .OutOfBounds
          | some glyph =>
            let reversed := s.reversed ++ [glyph]
            let length := s.length + 1
            let allocated_space :=
              if length ≥ s.allocated_space then 2 * s.allocated_space else s.allocated_space
            encode_loop fuel base ⟨q, reversed, length, allocated_space⟩

/-- Lines 119-122: `converted[i] = reversed[length - i - 1]` for
`i = 0 .. length - 1`. -/
def reverse_copy (reversed : List Char) (length : Nat) : List Char :=
  (List.range length).filterMap fun i => reversed[length - i - 1]?

/-- Lines 102-126. -/
def decimal_to_base (fuel : Nat) (number : Nat) (base : Nat) : Except Error (List Char) :=
  match encode_loop fuel base ⟨number, [], 0, 100⟩ with
  | .error e => .error e
  | .ok s => .ok (reverse_copy s.reversed s.length)

/-- Lines 143-146. -/
def convert_base (fuel : Nat) (number : Option (List Char)) (orig_base new_base : Nat) :
    Except Error (List Char) :=
  match validate_number number orig_base with
  | .error e => .error e
  | .ok () =>
    match convert_to_decimal number orig_base with
    | .error e => .error e
    | .ok decimal => decimal_to_base fuel decimal new_base

/-- Lines 106-112 with the buffer left out: the loop test `while (number)`,
the division and remainder of lines 108-109, the table read
`allowed_chars[r]` of line 110, `number = q` and `length++`. The result is
`length` at the exit of the loop, the number of iterations made when started
with `length = 0`; a run that `encode_loop` does not complete is not completed
here either. -/
def loop_iterations : Nat → Nat → Nat → Nat → Except Error Nat
  | fuel, base, number, length =>
    if number = 0 then .ok length
    else
      match fuel with
      | 0 => .error .OutOfFuel
      | fuel + 1 =>
        if base = 0 then .error .DivByZero
        else
          match allowed_chars[number % base]? with
          | none => .error .OutOfBounds
          | some _ => loop_iterations fuel base (number / base) (length + 1)

/-- Digit value of a glyph as the specification words it: the index of the
glyph in the 36-glyph alphabet. -/
def glyph_index (c : Char) : Nat := allowed_chars.indexOf c

/-- Value of a numeral as the specification words it: the sum over the
positions `i`, with `i = 0` at the rightmost glyph, of
`digit_value_i * base ^ i`. -/
def positional_value (base : Nat) (s : List Char) : Nat :=
  ∑ i in Finset.range s.length, glyph_index (s.reverse.getD i '0') * base ^ i

/-- The glyph of the digit `r`: the table entry that line 110 reads when `r` is
within the table. -/
def glyph_of (r : Nat) : Char := allowed_chars.getD r '0'

/-! ## The validator -/

theorem foldl_or_eq_any {α : Type} (p : α → Bool) (l : List α) (b : Bool) :
    l.foldl (fun valid j => valid || p j) b = (b || l.any p) := by
  induction l generalizing b with
  | nil => simp
  | cons a l ih => simp [ih, Bool.or_assoc]

theorem digit_valid_iff (c : Char) (base : Nat) :
    digit_valid c base = true ↔ c ∈ allowed_chars.take base := by
  unfold digit_valid
  rw [foldl_or_eq_any (fun j => allowed_chars[j]? == some c)]
  simp only [Bool.false_or, List.any_eq_true, List.mem_range, beq_iff_eq]
  rw [List.mem_iff_getElem?]
  constructor
  · rintro ⟨j, hj, h⟩
    exact ⟨j, by rw [List.getElem?_take_of_lt hj]; exact h⟩
  · rintro ⟨j, h⟩
    have hj : j < base := by
      by_contra hge
      rw [List.getElem?_take_eq_none (Nat.le_of_not_lt hge)] at h
      exact absurd h (by simp)
    exact ⟨j, hj, by rw [List.getElem?_take_of_lt hj] at h; exact h⟩

theorem validate_chars_ok_iff (base : Nat) (s : List Char) :
    validate_chars base s = .ok () ↔ ∀ c ∈ s, c ∈ allowed_chars.take base := by
  induction s with
  | nil => simp [validate_chars]
  | cons a s ih =>
    by_cases h : digit_valid a base = true
    · simp [validate_chars, h, ih, (digit_valid_iff a base).mp h]
    · have h' : a ∉ allowed_chars.take base := fun hm => h ((digit_valid_iff a base).mpr hm)
      simp [validate_chars, h, h']

theorem validate_chars_cases (base : Nat) (s : List Char) :
    validate_chars base s = .ok () ∨ validate_chars base s = .error .InvalidDigit := by
  induction s with
  | nil => simp [validate_chars]
  | cons a s ih =>
    by_cases h : digit_valid a base = true
    · simpa [validate_chars, h] using ih
    · simp [validate_chars, h]

theorem validate_number_eq (number : Option (List Char)) (base : Nat) :
    validate_number number base =
      if 36 < base then .error .InvalidBase
      else match number with
        | none => .error .NullNumeral
        | some s => validate_chars base s := rfl

theorem not_lower_of_allowed (c : Char) (h : c ∈ allowed_chars) : c.isLower = false := by
  have hall : ∀ d ∈ allowed_chars, d.isLower = false := by decide
  exact hall c h

/-! ## The encoder loop, one iteration at a time -/

theorem encode_loop_done (fuel base : Nat) (s : EncState) (h : s.number = 0) :
    encode_loop fuel base s = .ok s := by
  cases fuel <;> simp [encode_loop, h]

theorem encode_loop_out (base : Nat) (s : EncState) (h : s.number ≠ 0) :
    encode_loop 0 base s = .error .OutOfFuel := by
  simp [encode_loop, h]

theorem encode_loop_div (fuel : Nat) (s : EncState) (h : s.number ≠ 0) :
    encode_loop (fuel + 1) 0 s = .error .DivByZero := by
  simp [encode_loop, h]

theorem encode_loop_oob (fuel base : Nat) (s : EncState) (h : s.number ≠ 0) (hb : base ≠ 0)
    (hr : allowed_chars[s.number % base]? = none) :
    encode_loop (fuel + 1) base s = .error .OutOfBounds := by
  simp [encode_loop, h, hb, hr]

theorem encode_loop_step (fuel base : Nat) (s : EncState) (h : s.number ≠ 0) (hb : base ≠ 0)
    (glyph : Char) (hr : allowed_chars[s.number % base]? = some glyph) :
    encode_loop (fuel + 1) base s =
      encode_loop fuel base
        ⟨s.number / base, s.reversed ++ [glyph], s.length + 1,
          if s.length + 1 ≥ s.allocated_space then 2 * s.allocated_space
          else s.allocated_space⟩ := by
  rw [encode_loop]
  simp [h, hb, hr]

theorem encode_loop_error_kind (fuel base : Nat) (s : EncState) (e : Error)
    (h : encode_loop fuel base s = .error e) :
    e = .DivByZero ∨ e = .OutOfBounds ∨ e = .OutOfFuel := by
  induction fuel generalizing s with
  | zero =>
    by_cases hn : s.number = 0
    · rw [encode_loop_done _ _ _ hn] at h; simp at h
    · rw [encode_loop_out _ _ hn] at h; simp at h; simp [← h]
  | succ fuel ih =>
    by_cases hn : s.number = 0
    · rw [encode_loop_done _ _ _ hn] at h; simp at h
    · by_cases hb : base = 0
      · subst hb
        rw [encode_loop_div _ _ hn] at h; simp at h; simp [← h]
      · cases hr : allowed_chars[s.number % base]? with
        | none => rw [encode_loop_oob _ _ _ hn hb hr] at h; simp at h; simp [← h]
        | some glyph =>
          rw [encode_loop_step _ _ _ hn hb glyph hr] at h
          exact ih _ h

/-! ## The decoder -/

theorem digit_lookup_eq (c : Char) (l : List Char) (j : Nat) (h : c ∈ l) :
    digit_lookup c j l = j + l.indexOf c := by
  induction l generalizing j with
  | nil => simp at h
  | cons a l ih =>
    by_cases hac : a = c
    · subst hac
      simp [digit_lookup]
    · have hcl : c ∈ l := by
        rcases List.mem_cons.mp h with h' | h'
        · exact absurd h'.symm hac
        · exact h'
      simp only [digit_lookup, beq_iff_eq, hac, if_false]
      rw [ih (j + 1) hcl, List.indexOf_cons_ne l hac]
      omega

theorem decimal_value_eq_index (c : Char) (h : c ∈ allowed_chars) :
    decimal_value c = glyph_index c := by
  unfold decimal_value glyph_index
  rw [digit_lookup_eq c allowed_chars 0 h]
  omega

theorem convert_loop_mod (base : Nat) (l : List Char) (r p : Nat) :
    (convert_loop base l (r, p)).1 % UINT64_SIZE =
      (r + p * Nat.ofDigits base (l.map decimal_value)) % UINT64_SIZE := by
  induction l generalizing r p with
  | nil => simp [convert_loop]
  | cons c cs ih =>
    rw [convert_loop, ih, List.map_cons, Nat.ofDigits_cons]
    have h1 : (r + decimal_value c * p % UINT64_SIZE) % UINT64_SIZE ≡
        r + decimal_value c * p [MOD UINT64_SIZE] :=
      (Nat.mod_modEq _ _).trans (Nat.ModEq.add_left r (Nat.mod_modEq _ _))
    have h2 : p * base % UINT64_SIZE * Nat.ofDigits base (cs.map decimal_value) ≡
        p * base * Nat.ofDigits base (cs.map decimal_value) [MOD UINT64_SIZE] :=
      (Nat.mod_modEq _ _).mul_right _
    have h3 := h1.add h2
    unfold Nat.ModEq at h3
    rw [h3]
    congr 1
    ring

theorem convert_loop_lt (base : Nat) (l : List Char) (r p : Nat) (hr : r < UINT64_SIZE) :
    (convert_loop base l (r, p)).1 < UINT64_SIZE := by
  induction l generalizing r p with
  | nil => simpa [convert_loop] using hr
  | cons c cs ih =>
    rw [convert_loop]
    exact ih _ _ (Nat.mod_lt _ (by unfold UINT64_SIZE; positivity))

theorem convert_loop_value (base : Nat) (l : List Char) :
    (convert_loop base l (0, 1)).1 =
      Nat.ofDigits base (l.map decimal_value) % UINT64_SIZE := by
  have h := convert_loop_mod base l 0 1
  rw [Nat.mod_eq_of_lt (convert_loop_lt base l 0 1 (by unfold UINT64_SIZE; positivity))] at h
  simpa using h

theorem sum_getD_eq_ofDigits (f : Char → Nat) (base : Nat) (l : List Char) :
    ∑ i in Finset.range l.length, f (l.getD i '0') * base ^ i =
      Nat.ofDigits base (l.map f) := by
  induction l with
  | nil => simp
  | cons a l ih =>
    rw [List.length_cons, Finset.sum_range_succ', List.map_cons, Nat.ofDigits_cons, ← ih,
      Finset.mul_sum]
    simp only [List.getD_cons_succ, List.getD_cons_zero, pow_zero, mul_one]
    rw [add_comm]
    congr 1
    apply Finset.sum_congr rfl
    intro i _
    ring

theorem positional_value_eq (base : Nat) (s : List Char) :
    positional_value base s = Nat.ofDigits base (s.reverse.map glyph_index) := by
  unfold positional_value
  rw [← sum_getD_eq_ofDigits glyph_index base s.reverse, List.length_reverse]

theorem valid_mem_allowed (base : Nat) (s : List Char)
    (hv : validate_number (some s) base = .ok ()) :
    base ≤ 36 ∧ ∀ c ∈ s, c ∈ allowed_chars.take base := by
  rw [validate_number_eq] at hv
  by_cases hb : 36 < base
  · simp [hb] at hv
  · simp only [hb, if_false] at hv
    exact ⟨Nat.le_of_not_lt hb, (validate_chars_ok_iff base s).mp hv⟩

theorem map_decimal_value_eq (base : Nat) (s : List Char)
    (hv : validate_number (some s) base = .ok ()) :
    s.reverse.map decimal_value = s.reverse.map glyph_index := by
  apply List.map_congr_left
  intro c hc
  exact decimal_value_eq_index c
    (List.mem_of_mem_take ((valid_mem_allowed base s hv).2 c (List.mem_reverse.mp hc)))

theorem convert_to_decimal_eq (base : Nat) (s : List Char)
    (hv : validate_number (some s) base = .ok ()) :
    convert_to_decimal (some s) base = .ok (positional_value base s % UINT64_SIZE) := by
  simp only [convert_to_decimal, hv]
  rw [convert_loop_value, map_decimal_value_eq base s hv, positional_value_eq]

/-! ## The encoder and the digits of a number -/

theorem digits_length_le_of_lt_pow (base : Nat) (hb : 2 ≤ base) (k n : Nat)
    (h : n < base ^ k) : (Nat.digits base n).length ≤ k := by
  induction k generalizing n with
  | zero =>
    have hn : n = 0 := by simpa using h
    simp [hn]
  | succ k ih =>
    by_cases hn : n = 0
    · simp [hn]
    · rw [Nat.digits_def' (by omega) (Nat.pos_of_ne_zero hn), List.length_cons]
      have hq : n / base < base ^ k := by
        apply Nat.div_lt_of_lt_mul
        rw [← pow_succ']
        exact h
      exact Nat.succ_le_succ (ih _ hq)

theorem digits_length_le_64 (base : Nat) (hb : 2 ≤ base) (n : Nat) (h : n < 2 ^ 64) :
    (Nat.digits base n).length ≤ 64 :=
  digits_length_le_of_lt_pow base hb 64 n
    (Nat.lt_of_lt_of_le h (Nat.pow_le_pow_left hb 64))

theorem lookup_of_lt (r : Nat) (h : r < 36) : allowed_chars[r]? = some (glyph_of r) := by
  have hlen : allowed_chars.length = 36 := by decide
  unfold glyph_of
  rw [List.getD_eq_getElem?_getD, List.getElem?_eq_getElem (by omega)]
  rfl

theorem encode_loop_digits (base : Nat) (hb : 2 ≤ base) (hb36 : base ≤ 36) (fuel : Nat)
    (s : EncState) (hf : (Nat.digits base s.number).length ≤ fuel) :
    ∃ a, encode_loop fuel base s =
      .ok ⟨0, s.reversed ++ (Nat.digits base s.number).map glyph_of,
        s.length + (Nat.digits base s.number).length, a⟩ := by
  induction fuel generalizing s with
  | zero =>
    have hn : s.number = 0 :=
      Nat.digits_eq_nil_iff_eq_zero.mp (List.length_eq_zero.mp (Nat.le_zero.mp hf))
    refine ⟨s.allocated_space, ?_⟩
    rw [encode_loop_done _ _ _ hn, hn]
    cases s
    simp_all
  | succ fuel ih =>
    by_cases hn : s.number = 0
    · refine ⟨s.allocated_space, ?_⟩
      rw [encode_loop_done _ _ _ hn, hn]
      cases s
      simp_all
    · have hd := Nat.digits_def' (show 1 < base by omega) (Nat.pos_of_ne_zero hn)
      have hr : s.number % base < 36 :=
        Nat.lt_of_lt_of_le (Nat.mod_lt _ (by omega)) hb36
      rw [encode_loop_step fuel base s hn (by omega) _ (lookup_of_lt _ hr)]
      rw [hd, List.length_cons] at hf
      obtain ⟨a, ha⟩ := ih ⟨s.number / base, s.reversed ++ [glyph_of (s.number % base)],
        s.length + 1, if s.length + 1 ≥ s.allocated_space then 2 * s.allocated_space
          else s.allocated_space⟩ (Nat.le_of_succ_le_succ hf)
      refine ⟨a, ?_⟩
      rw [ha, hd]
      simp only [List.map_cons, List.length_cons, List.append_assoc, List.singleton_append]
      congr 2
      omega

theorem encode_loop_short (base : Nat) (hb : 2 ≤ base) (hb36 : base ≤ 36) (fuel : Nat)
    (s : EncState) (hf : fuel < (Nat.digits base s.number).length) :
    encode_loop fuel base s = .error .OutOfFuel := by
  induction fuel generalizing s with
  | zero =>
    have hn : s.number ≠ 0 := by
      intro h0
      rw [h0] at hf
      simp at hf
    exact encode_loop_out base s hn
  | succ fuel ih =>
    have hn : s.number ≠ 0 := by
      intro h0
      rw [h0] at hf
      simp at hf
    have hd := Nat.digits_def' (show 1 < base by omega) (Nat.pos_of_ne_zero hn)
    have hr : s.number % base < 36 :=
      Nat.lt_of_lt_of_le (Nat.mod_lt _ (by omega)) hb36
    rw [encode_loop_step fuel base s hn (by omega) _ (lookup_of_lt _ hr)]
    rw [hd, List.length_cons] at hf
    exact ih _ (Nat.lt_of_succ_lt_succ hf)

theorem encode_loop_no_out (base : Nat) (hb : 2 ≤ base) (fuel : Nat) (s : EncState)
    (hf : (Nat.digits base s.number).length ≤ fuel) :
    ¬ encode_loop fuel base s = .error .OutOfFuel := by
  induction fuel generalizing s with
  | zero =>
    have hn : s.number = 0 :=
      Nat.digits_eq_nil_iff_eq_zero.mp (List.length_eq_zero.mp (Nat.le_zero.mp hf))
    rw [encode_loop_done _ _ _ hn]
    simp
  | succ fuel ih =>
    by_cases hn : s.number = 0
    · rw [encode_loop_done _ _ _ hn]
      simp
    · have hd := Nat.digits_def' (show 1 < base by omega) (Nat.pos_of_ne_zero hn)
      rw [hd, List.length_cons] at hf
      cases hr : allowed_chars[s.number % base]? with
      | none =>
        rw [encode_loop_oob _ _ _ hn (by omega) hr]
        simp
      | some glyph =>
        rw [encode_loop_step fuel base s hn (by omega) glyph hr]
        exact ih _ (Nat.le_of_succ_le_succ hf)

theorem encode_loop_no_div (base : Nat) (hb : base ≠ 0) (fuel : Nat) (s : EncState) :
    ¬ encode_loop fuel base s = .error .DivByZero := by
  induction fuel generalizing s with
  | zero =>
    by_cases hn : s.number = 0
    · rw [encode_loop_done _ _ _ hn]
      simp
    · rw [encode_loop_out _ _ hn]
      simp
  | succ fuel ih =>
    by_cases hn : s.number = 0
    · rw [encode_loop_done _ _ _ hn]
      simp
    · cases hr : allowed_chars[s.number % base]? with
      | none =>
        rw [encode_loop_oob _ _ _ hn hb hr]
        simp
      | some glyph =>
        rw [encode_loop_step fuel base s hn hb glyph hr]
        exact ih _

theorem encode_loop_ok_length (base : Nat) (hb : 2 ≤ base) (fuel : Nat) (s t : EncState)
    (h : encode_loop fuel base s = .ok t) :
    t.number = 0 ∧ t.length = s.length + (Nat.digits base s.number).length := by
  induction fuel generalizing s with
  | zero =>
    by_cases hn : s.number = 0
    · rw [encode_loop_done _ _ _ hn] at h
      simp only [Except.ok.injEq] at h
      subst h
      simp [hn]
    · rw [encode_loop_out _ _ hn] at h
      simp at h
  | succ fuel ih =>
    by_cases hn : s.number = 0
    · rw [encode_loop_done _ _ _ hn] at h
      simp only [Except.ok.injEq] at h
      subst h
      simp [hn]
    · have hd := Nat.digits_def' (show 1 < base by omega) (Nat.pos_of_ne_zero hn)
      cases hr : allowed_chars[s.number % base]? with
      | none =>
        rw [encode_loop_oob _ _ _ hn (by omega) hr] at h
        simp at h
      | some glyph =>
        rw [encode_loop_step fuel base s hn (by omega) glyph hr] at h
        obtain ⟨h1, h2⟩ := ih _ h
        refine ⟨h1, ?_⟩
        rw [h2, hd, List.length_cons]
        simp only
        omega

theorem loop_iterations_eq_encode_loop (fuel base : Nat) (s : EncState) :
    loop_iterations fuel base s.number s.length =
      match encode_loop fuel base s with
      | .error e => .error e
      | .ok t => .ok t.length := by
  induction fuel generalizing s with
  | zero =>
    by_cases hn : s.number = 0
    · rw [encode_loop_done _ _ _ hn]
      simp [loop_iterations, hn]
    · rw [encode_loop_out _ _ hn]
      simp [loop_iterations, hn]
  | succ fuel ih =>
    by_cases hn : s.number = 0
    · rw [encode_loop_done _ _ _ hn]
      simp [loop_iterations, hn]
    · by_cases hb : base = 0
      · subst hb
        rw [encode_loop_div _ _ hn]
        simp [loop_iterations, hn]
      · cases hr : allowed_chars[s.number % base]? with
        | none =>
          rw [encode_loop_oob _ _ _ hn hb hr, loop_iterations]
          simp [hn, hb, hr]
        | some glyph =>
          rw [encode_loop_step fuel base s hn hb glyph hr, loop_iterations]
          simp only [hn, hb, hr, if_false]
          exact ih ⟨s.number / base, s.reversed ++ [glyph], s.length + 1,
            if s.length + 1 ≥ s.allocated_space then 2 * s.allocated_space
            else s.allocated_space⟩

theorem reverse_copy_eq (l : List Char) : reverse_copy l l.length = l.reverse := by
  unfold reverse_copy
  apply List.ext_getElem?
  intro i
  by_cases hi : i < l.length
  · have h1 : (List.range l.length).filterMap (fun i => l[l.length - i - 1]?) =
        (List.range l.length).map (fun i => l.getD (l.length - i - 1) '0') := by
      rw [← List.filterMap_eq_map]
      apply List.filterMap_congr
      intro x hx
      have hx' : x < l.length := List.mem_range.mp hx
      simp only [Function.comp_apply]
      rw [List.getD_eq_getElem?_getD, List.getElem?_eq_getElem (by omega)]
      rfl
    rw [h1, List.getElem?_map, List.getElem?_range hi, Option.map_some',
      List.getElem?_reverse hi, show l.length - 1 - i = l.length - i - 1 by omega,
      List.getD_eq_getElem?_getD, List.getElem?_eq_getElem (by omega)]
    rfl
  · have h1 : ((List.range l.length).filterMap (fun i => l[l.length - i - 1]?)).length
        ≤ l.length := by
      have := List.length_filterMap_le (fun i => l[l.length - i - 1]?) (List.range l.length)
      simpa using this
    rw [List.getElem?_eq_none (by omega), List.getElem?_eq_none (by simp; omega)]

theorem decimal_to_base_digits (base : Nat) (hb : 2 ≤ base) (hb36 : base ≤ 36)
    (fuel number : Nat) (hf : (Nat.digits base number).length ≤ fuel) :
    decimal_to_base fuel number base =
      .ok ((Nat.digits base number).reverse.map glyph_of) := by
  obtain ⟨a, ha⟩ := encode_loop_digits base hb hb36 fuel ⟨number, [], 0, 100⟩ hf
  unfold decimal_to_base
  rw [ha]
  simp only [List.nil_append, Nat.zero_add]
  have hlen : (Nat.digits base number).length =
      ((Nat.digits base number).map glyph_of).length := by simp
  rw [hlen, reverse_copy_eq, List.map_reverse]

/-! ## Decoding followed by encoding -/

theorem glyph_index_glyph_of (j : Nat) (h : j < 36) : glyph_index (glyph_of j) = j := by
  have hall : ∀ i, i < 36 → glyph_index (glyph_of i) = i := by decide
  exact hall j h

theorem allowed_take_cases (base : Nat) (c : Char) (h : c ∈ allowed_chars.take base) :
    ∃ j, j < base ∧ j < 36 ∧ c = glyph_of j := by
  obtain ⟨j, hj⟩ := List.mem_iff_getElem?.mp h
  have hjb : j < base := by
    by_contra hge
    rw [List.getElem?_take_eq_none (Nat.le_of_not_lt hge)] at hj
    exact absurd hj (by simp)
  rw [List.getElem?_take_of_lt hjb] at hj
  have hj36 : j < 36 := by
    by_contra hge
    have hlen : allowed_chars.length = 36 := by decide
    rw [List.getElem?_eq_none (by omega)] at hj
    exact absurd hj (by simp)
  refine ⟨j, hjb, hj36, ?_⟩
  rw [lookup_of_lt j hj36] at hj
  exact (Option.some.inj hj).symm

theorem glyph_index_lt (base : Nat) (c : Char) (h : c ∈ allowed_chars.take base) :
    glyph_index c < base := by
  obtain ⟨j, hjb, hj36, rfl⟩ := allowed_take_cases base c h
  rw [glyph_index_glyph_of j hj36]
  exact hjb

theorem glyph_of_glyph_index (base : Nat) (c : Char) (h : c ∈ allowed_chars.take base) :
    glyph_of (glyph_index c) = c := by
  obtain ⟨j, _, hj36, rfl⟩ := allowed_take_cases base c h
  rw [glyph_index_glyph_of j hj36]

theorem glyph_index_eq_zero (base : Nat) (c : Char) (h : c ∈ allowed_chars.take base)
    (h0 : glyph_index c = 0) : c = '0' := by
  have := glyph_of_glyph_index base c h
  rw [h0] at this
  rw [← this]
  rfl

theorem digits_of_numeral (base : Nat) (hb : 2 ≤ base) (s : List Char)
    (hs : ∀ c ∈ s, c ∈ allowed_chars.take base) :
    Nat.digits base (Nat.ofDigits base (s.reverse.map glyph_index)) =
      (s.dropWhile (fun c => c == '0')).reverse.map glyph_index := by
  induction s with
  | nil => simp
  | cons c s ih =>
    have hs' : ∀ d ∈ s, d ∈ allowed_chars.take base :=
      fun d hd => hs d (List.mem_cons_of_mem c hd)
    by_cases hc : c = '0'
    · subst hc
      have hz : glyph_index '0' = 0 := by decide
      rw [List.dropWhile_cons_of_pos (by simp), ← ih hs', List.reverse_cons, List.map_append,
        Nat.ofDigits_append]
      simp [hz]
    · rw [List.dropWhile_cons_of_neg (by simpa using hc)]
      apply Nat.digits_ofDigits base (by omega)
      · intro l hl
        obtain ⟨d, hd, rfl⟩ := List.mem_map.mp hl
        exact glyph_index_lt base d (hs d (List.mem_reverse.mp hd))
      · intro hne
        simp only [List.reverse_cons, List.map_append, List.map_cons, List.map_nil,
          List.getLast_append_singleton]
        intro h0
        exact hc (glyph_index_eq_zero base c (hs c (List.mem_cons_self c s)) h0)

theorem round_trip_of_small (base : Nat) (hb : 2 ≤ base) (s : List Char)
    (hv : validate_number (some s) base = .ok ())
    (hsmall : positional_value base s < 2 ^ 64) (fuel : Nat) (hf : 64 ≤ fuel) :
    convert_to_decimal (some s) base = .ok (positional_value base s) ∧
    decimal_to_base fuel (positional_value base s) base =
      .ok (s.dropWhile (fun c => c == '0')) := by
  obtain ⟨hb36, hs⟩ := valid_mem_allowed base s hv
  have hdec : convert_to_decimal (some s) base = .ok (positional_value base s) := by
    rw [convert_to_decimal_eq base s hv]
    unfold UINT64_SIZE
    rw [Nat.mod_eq_of_lt hsmall]
  refine ⟨hdec, ?_⟩
  rw [decimal_to_base_digits base hb hb36 fuel _
    (Nat.le_trans (digits_length_le_64 base hb _ hsmall) hf)]
  rw [positional_value_eq, digits_of_numeral base hb s hs]
  simp only [List.map_reverse, List.reverse_reverse, List.map_map]
  congr 1
  calc (s.dropWhile (fun c => c == '0')).map (glyph_of ∘ glyph_index)
      = (s.dropWhile (fun c => c == '0')).map id :=
        List.map_congr_left (fun c hc =>
          glyph_of_glyph_index base c (hs c ((List.dropWhile_sublist _).subset hc)))
    _ = s.dropWhile (fun c => c == '0') := List.map_id _

/-! ## Claims about the validator -/

/-- C4. `validate_number` returns normally exactly when the base is at most 36,
the numeral is not null and each of its characters is one of the first `base`
glyphs of "0123456789ABCDEFGHIJKLMNOPQRSTUVWXYZ"; one character outside that
set, wherever it stands, makes the call fail. -/
theorem validate_number_ok_iff (number : Option (List Char)) (base : Nat) :
    allowed_chars = "0123456789ABCDEFGHIJKLMNOPQRSTUVWXYZ".toList ∧
    (validate_number number base = .ok () ↔
      base ≤ 36 ∧ ∃ s, number = some s ∧ ∀ c ∈ s, c ∈ allowed_chars.take base) ∧
    (∀ (front back : List Char) (c : Char), c ∉ allowed_chars.take base →
      ∃ e, validate_number (some (front ++ c :: back)) base = .error e) := by
  refine ⟨by decide, ?_, ?_⟩
  · rw [validate_number_eq]
    by_cases hb : 36 < base
    · simp [hb]
    · cases number with
      | none => simp [hb]
      | some s => simp [hb, validate_chars_ok_iff, Nat.le_of_not_lt hb]
  · intro front back c hc
    rw [validate_number_eq]
    by_cases hb : 36 < base
    · exact ⟨.InvalidBase, by simp [hb]⟩
    · refine ⟨.InvalidDigit, ?_⟩
      simp only [hb, if_false]
      rcases validate_chars_cases base (front ++ c :: back) with h | h
      · exact absurd ((validate_chars_ok_iff base _).mp h c (by simp)) hc
      · exact h

/-- C5. The three ways `validate_number` fails: `InvalidBase` exactly when the
base exceeds 36, whatever the numeral (null included); `NullNumeral` exactly
when the base is at most 36 and the numeral is null; `InvalidDigit` exactly when
the base is at most 36, the numeral is not null and one of its characters is
outside the first `base` glyphs. So base 37 is always `InvalidBase`, base 36
never is, and "FFF" in base 10 is `InvalidDigit`. -/
theorem validate_number_error_kinds (number : Option (List Char)) (base : Nat) :
    (validate_number number base = .error .InvalidBase ↔ 36 < base) ∧
    (validate_number number base = .error .NullNumeral ↔ base ≤ 36 ∧ number = none) ∧
    (validate_number number base = .error .InvalidDigit ↔
      base ≤ 36 ∧ ∃ s, number = some s ∧ ∃ c ∈ s, c ∉ allowed_chars.take base) ∧
    validate_number number 37 = .error .InvalidBase ∧
    validate_number none 37 = .error .InvalidBase ∧
    ¬ validate_number number 36 = .error .InvalidBase ∧
    validate_number (some "FFF".toList) 10 = .error .InvalidDigit := by
  have key : ∀ s : List Char, validate_chars base s = .error .InvalidDigit ↔
      ∃ c ∈ s, c ∉ allowed_chars.take base := by
    intro s
    constructor
    · intro h
      by_contra hne
      push_neg at hne
      rw [(validate_chars_ok_iff base s).mpr hne] at h
      exact absurd h (by simp)
    · rintro ⟨c, hc, hn⟩
      rcases validate_chars_cases base s with h | h
      · exact absurd ((validate_chars_ok_iff base s).mp h c hc) hn
      · exact h
  have nobase : ∀ (b : Nat) (s : List Char), ¬ validate_chars b s = .error .InvalidBase := by
    intro b s h
    rcases validate_chars_cases b s with h' | h' <;> rw [h'] at h <;> simp at h
  have nonull : ∀ s : List Char, ¬ validate_chars base s = .error .NullNumeral := by
    intro s h
    rcases validate_chars_cases base s with h' | h' <;> rw [h'] at h <;> simp at h
  refine ⟨?_, ?_, ?_, by simp [validate_number_eq], by decide, ?_, by decide⟩
  · rw [validate_number_eq]
    by_cases hb : 36 < base
    · simp [hb]
    · cases number with
      | none => simp [hb]
      | some s => simpa [hb] using nobase base s
  · rw [validate_number_eq]
    by_cases hb : 36 < base
    · simp [hb]
    · cases number with
      | none => simp [hb, Nat.le_of_not_lt hb]
      | some s => simpa [hb] using nonull s
  · rw [validate_number_eq]
    by_cases hb : 36 < base
    · simp [hb]
    · cases number with
      | none => simp [hb]
      | some s => simp [hb, key, Nat.le_of_not_lt hb]
  · rw [validate_number_eq]
    cases number with
    | none => simp
    | some s => simpa using nobase 36 s

/-- C6. Lowercase letters are not glyphs: for a base of at most 36, a numeral
holding a letter in `a..z` fails with `InvalidDigit`; so "abc" is rejected in
base 16, where "ABC", the same numeral in upper case, passes. -/
theorem validate_number_lowercase (s : List Char) (base : Nat) (hb : base ≤ 36)
    (hl : ∃ c ∈ s, 'a' ≤ c ∧ c ≤ 'z') :
    validate_number (some s) base = .error .InvalidDigit ∧
    validate_number (some "abc".toList) 16 = .error .InvalidDigit ∧
    validate_number (some ("abc".toList.map Char.toUpper)) 16 = .ok () ∧
    "abc".toList.map Char.toUpper = "ABC".toList := by
  refine ⟨?_, by decide, by decide, by decide⟩
  obtain ⟨c, hc, hlo, hhi⟩ := hl
  have hnot : c ∉ allowed_chars.take base := by
    intro hm
    have h1 := not_lower_of_allowed c (List.mem_of_mem_take hm)
    have h2 : c.isLower = true := by
      simp only [Char.isLower, Bool.and_eq_true, decide_eq_true_eq]
      exact ⟨hlo, hhi⟩
    rw [h1] at h2
    exact absurd h2 (by simp)
  rw [validate_number_eq]
  simp only [Nat.not_lt.mpr hb, if_false]
  rcases validate_chars_cases base s with h | h
  · exact absurd ((validate_chars_ok_iff base s).mp h c hc) hnot
  · exact h

/-- C6 at "abc" in base 16. -/
theorem validate_number_lowercase_witness :
    validate_number (some ['a', 'b', 'c']) 16 = .error .InvalidDigit ∧
    validate_number (some "abc".toList) 16 = .error .InvalidDigit ∧
    validate_number (some ("abc".toList.map Char.toUpper)) 16 = .ok () ∧
    "abc".toList.map Char.toUpper = "ABC".toList :=
  validate_number_lowercase ['a', 'b', 'c'] 16 (by decide) ⟨'a', by decide, by decide, by decide⟩

/-! ## Claims about the encoder, the decoder and the converter on examples -/

/-- C7. Encoding the value 0 gives the empty string, not "0", in every base
(0, 1 and bases above 36 included) and for every bound on the iterations:
the loop test fails at once, so the loop returns its initial state, with
`length` 0 and nothing written. -/
theorem decimal_to_base_zero (fuel base : Nat) :
    decimal_to_base fuel 0 base = .ok [] ∧
    ¬ decimal_to_base fuel 0 base = .ok ['0'] ∧
    encode_loop fuel base ⟨0, [], 0, 100⟩ = .ok ⟨0, [], 0, 100⟩ := by
  have h : encode_loop fuel base ⟨0, [], 0, 100⟩ = .ok ⟨0, [], 0, 100⟩ :=
    encode_loop_done fuel base _ rfl
  have h0 : decimal_to_base fuel 0 base = .ok [] := by
    simp [decimal_to_base, h, reverse_copy]
  exact ⟨h0, by simp [h0], h⟩

/-- C8. The documented examples of the decoder and of the encoder: "Z" in base
36 is 35, "101" in base 2 is 5, "ABC" in base 16 is 2748, "11Z" in base 36 is
1367, and each of these values encodes back to the same string. -/
theorem documented_decode_encode_examples :
    convert_to_decimal (some "Z".toList) 36 = .ok 35 ∧
    convert_to_decimal (some "101".toList) 2 = .ok 5 ∧
    convert_to_decimal (some "ABC".toList) 16 = .ok 2748 ∧
    convert_to_decimal (some "11Z".toList) 36 = .ok 1367 ∧
    decimal_to_base 64 35 36 = .ok "Z".toList ∧
    decimal_to_base 64 5 2 = .ok "101".toList ∧
    decimal_to_base 64 2748 16 = .ok "ABC".toList ∧
    decimal_to_base 64 1367 36 = .ok "11Z".toList := by
  decide!

/-- C9. The documented examples of the converter: "11Z" from base 36 to base 2
is "10101010111", and "ABC" from base 16 to base 36 is "24C". -/
theorem documented_convert_examples :
    convert_base 64 (some "11Z".toList) 36 2 = .ok "10101010111".toList ∧
    convert_base 64 (some "ABC".toList) 16 36 = .ok "24C".toList := by
  decide!

/-- C3. `convert_base` has the outcome of decoding in the origin base and then
encoding in the destination base: the same string when the numeral passes
validation in the origin base, and the validator's own failure, met before
anything is decoded or encoded, when it does not. The destination base is not
validated: `InvalidBase` is reported exactly when the origin base exceeds 36,
and destination base 37 is accepted. -/
theorem convert_base_eq_compose (fuel : Nat) (number : Option (List Char))
    (orig_base new_base : Nat) :
    convert_base fuel number orig_base new_base =
      (convert_to_decimal number orig_base >>= fun decimal =>
        decimal_to_base fuel decimal new_base) ∧
    (validate_number number orig_base = .ok () →
      ∃ decimal, convert_to_decimal number orig_base = .ok decimal ∧
        convert_base fuel number orig_base new_base =
          decimal_to_base fuel decimal new_base) ∧
    (∀ e, validate_number number orig_base = .error e →
      convert_to_decimal number orig_base = .error e ∧
      convert_base fuel number orig_base new_base = .error e) ∧
    (convert_base fuel number orig_base new_base = .error .InvalidBase ↔ 36 < orig_base) ∧
    convert_base 64 (some "1".toList) 10 37 = .ok "1".toList := by
  have hbase : validate_number number orig_base = .error .InvalidBase ↔ 36 < orig_base := by
    rw [validate_number_eq]
    by_cases hb : 36 < orig_base
    · simp [hb]
    · cases number with
      | none => simp [hb]
      | some s =>
        simp only [hb, if_false, iff_false]
        intro h
        rcases validate_chars_cases orig_base s with h' | h' <;> rw [h'] at h <;> simp at h
  have hdec : ∀ (d : Nat), ¬ decimal_to_base fuel d new_base = .error .InvalidBase := by
    intro d h
    unfold decimal_to_base at h
    cases hl : encode_loop fuel new_base ⟨d, [], 0, 100⟩ with
    | error e =>
      rw [hl] at h
      simp only [Except.error.injEq] at h
      subst h
      rcases encode_loop_error_kind _ _ _ _ hl with h1 | h1 | h1 <;> simp at h1
    | ok s => rw [hl] at h; simp at h
  cases hv : validate_number number orig_base with
  | error e =>
    have hconv : convert_to_decimal number orig_base = .error e := by
      simp [convert_to_decimal, hv]
    have hcb : convert_base fuel number orig_base new_base = .error e := by
      simp [convert_base, hv]
    refine ⟨by rw [hcb, hconv]; rfl, by simp, ?_, ?_, by decide!⟩
    · intro e' he'
      simp only [Except.error.injEq] at he'
      subst he'
      exact ⟨hconv, hcb⟩
    · rw [hcb, ← hbase, hv]; simp only [Except.error.injEq]
  | ok u =>
    cases number with
    | none =>
      rw [validate_number_eq] at hv
      by_cases hb : 36 < orig_base <;> simp [hb] at hv
    | some s =>
      have hconv : convert_to_decimal (some s) orig_base =
          .ok (convert_loop orig_base s.reverse (0, 1)).1 := by
        simp [convert_to_decimal, hv]
      have hcb : convert_base fuel (some s) orig_base new_base =
          decimal_to_base fuel (convert_loop orig_base s.reverse (0, 1)).1 new_base := by
        simp [convert_base, hv, hconv]
      refine ⟨by rw [hcb, hconv]; rfl, fun _ => ⟨_, hconv, hcb⟩, by simp, ?_, by decide!⟩
      rw [hcb, ← hbase, hv]
      simp only [reduceCtorEq, iff_false]
      exact hdec _

/-! ## Claims about the decoder -/

/-- C2. For a numeral that passes `validate_number` in the given base (which
is then at most 36), `convert_to_decimal` returns the positional value, the sum
of `digit_value_i * base ^ i` with `i = 0` at the rightmost glyph and the digit
value the index of the glyph in the alphabet, reduced modulo `2 ^ 64`; it
returns the sum itself when the sum is below `2 ^ 64`. -/
theorem convert_to_decimal_value (s : List Char) (base : Nat)
    (hv : validate_number (some s) base = .ok ()) :
    base ≤ 36 ∧
    convert_to_decimal (some s) base = .ok (positional_value base s % 2 ^ 64) ∧
    (positional_value base s < 2 ^ 64 →
      convert_to_decimal (some s) base = .ok (positional_value base s)) := by
  have h := convert_to_decimal_eq base s hv
  unfold UINT64_SIZE at h
  refine ⟨(valid_mem_allowed base s hv).1, h, fun hlt => ?_⟩
  rw [h, Nat.mod_eq_of_lt hlt]

/-- C2 at "ABC" in base 16. -/
theorem convert_to_decimal_value_witness :
    16 ≤ 36 ∧
    convert_to_decimal (some ['A', 'B', 'C']) 16 =
      .ok (positional_value 16 ['A', 'B', 'C'] % 2 ^ 64) ∧
    (positional_value 16 ['A', 'B', 'C'] < 2 ^ 64 →
      convert_to_decimal (some ['A', 'B', 'C']) 16 =
        .ok (positional_value 16 ['A', 'B', 'C'])) :=
  convert_to_decimal_value ['A', 'B', 'C'] 16 (by decide)

/-! ## Claims about the encoder loop and the round trip -/

/-- C10, as stated, fails for a base above 36. In base 37 the value 221 has
the two digits 36 and 5; the first iteration of the loop computes the remainder
36 and reads `allowed_chars[36]`, past the 36 glyphs of the table, so the loop
stops there under every bound on its iterations and never reaches its exit
with two iterations made. -/
theorem decimal_to_base_loop_count_counterexample :
    2 ≤ 37 ∧ 221 < 2 ^ 64 ∧
    Nat.digits 37 221 = [36, 5] ∧
    221 % 37 = 36 ∧ allowed_chars[221 % 37]? = none ∧
    encode_loop 64 37 ⟨221, [], 0, 100⟩ = .error .OutOfBounds ∧
    (∀ fuel, encode_loop (fuel + 1) 37 ⟨221, [], 0, 100⟩ = .error .OutOfBounds) ∧
    (∀ fuel t, ¬ encode_loop fuel 37 ⟨221, [], 0, 100⟩ = .ok t) := by
  have hoob : ∀ fuel, encode_loop (fuel + 1) 37 ⟨221, [], 0, 100⟩ = .error .OutOfBounds :=
    fun fuel => encode_loop_oob fuel 37 _ (by decide) (by decide) (by decide)
  refine ⟨by decide, by decide, by norm_num, by decide, by decide, hoob 63, hoob,
    fun fuel t h => ?_⟩
  cases fuel with
  | zero => rw [encode_loop_out 37 _ (by decide)] at h; simp at h
  | succ fuel => rw [hoob fuel] at h; simp at h

/-- C10, amended. For a 64-bit value and a base of at least 2 the
digit-extraction loop stops: each iteration replaces a non-zero `number` by
the strictly smaller `number / base`, the value has at most 64 digits in that
base, and under a bound of at least that many iterations the loop never stops
at the bound: it reaches its exit with `length` equal to the number of digits,
or, only for a base above 36, it stops at a table read past the 36 glyphs.
Any final state has `number = 0` and `length` equal to the number of digits.
For a base from 2 to 36 the loop reaches its exit after exactly as many
iterations as the value has digits: it is still running at every smaller
bound. -/
theorem decimal_to_base_loop_terminates (number base : Nat) (hb : 2 ≤ base)
    (hn : number < 2 ^ 64) :
    (∀ n, 0 < n → n / base < n) ∧
    (Nat.digits base number).length ≤ 64 ∧
    (∀ fuel, (Nat.digits base number).length ≤ fuel →
      ¬ encode_loop fuel base ⟨number, [], 0, 100⟩ = .error .OutOfFuel) ∧
    (∀ fuel, (Nat.digits base number).length ≤ fuel →
      (∃ t, encode_loop fuel base ⟨number, [], 0, 100⟩ = .ok t ∧
        t.number = 0 ∧ t.length = (Nat.digits base number).length) ∨
      (36 < base ∧ encode_loop fuel base ⟨number, [], 0, 100⟩ = .error .OutOfBounds)) ∧
    (∀ fuel t, encode_loop fuel base ⟨number, [], 0, 100⟩ = .ok t →
      t.number = 0 ∧ t.length = (Nat.digits base number).length) ∧
    (base ≤ 36 → ∀ fuel,
      ((Nat.digits base number).length ≤ fuel →
        ∃ t, encode_loop fuel base ⟨number, [], 0, 100⟩ = .ok t ∧
          t.number = 0 ∧ t.length = (Nat.digits base number).length) ∧
      (fuel < (Nat.digits base number).length →
        encode_loop fuel base ⟨number, [], 0, 100⟩ = .error .OutOfFuel)) := by
  have hok : ∀ fuel t, encode_loop fuel base ⟨number, [], 0, 100⟩ = .ok t →
      t.number = 0 ∧ t.length = (Nat.digits base number).length := by
    intro fuel t ht
    simpa using encode_loop_ok_length base hb fuel _ t ht
  have h36 : base ≤ 36 → ∀ fuel, (Nat.digits base number).length ≤ fuel →
      ∃ t, encode_loop fuel base ⟨number, [], 0, 100⟩ = .ok t ∧
        t.number = 0 ∧ t.length = (Nat.digits base number).length := by
    intro hb36 fuel hf
    obtain ⟨a, ha⟩ := encode_loop_digits base hb hb36 fuel ⟨number, [], 0, 100⟩ hf
    exact ⟨_, ha, rfl, by simp⟩
  refine ⟨fun n h0 => Nat.div_lt_self h0 (by omega), digits_length_le_64 base hb number hn,
    fun fuel hf => encode_loop_no_out base hb fuel _ hf, fun fuel hf => ?_, hok,
    fun hb36 fuel => ⟨h36 hb36 fuel, fun hf => encode_loop_short base hb hb36 fuel _ hf⟩⟩
  cases hres : encode_loop fuel base ⟨number, [], 0, 100⟩ with
  | ok t => exact Or.inl ⟨t, rfl, hok fuel t hres⟩
  | error e =>
    right
    have hb36 : 36 < base := by
      by_contra hle
      obtain ⟨t, ht, _⟩ := h36 (Nat.le_of_not_lt hle) fuel hf
      rw [hres] at ht
      simp at ht
    refine ⟨hb36, ?_⟩
    rcases encode_loop_error_kind fuel base _ e hres with he | he | he
    · exact absurd (he ▸ hres) (encode_loop_no_div base (by omega) fuel _)
    · rw [he]
    · exact absurd (he ▸ hres) (encode_loop_no_out base hb fuel _ hf)

/-- C10, amended, at the value 1367 in base 36. -/
theorem decimal_to_base_loop_terminates_witness :
    (∀ n, 0 < n → n / 36 < n) ∧
    (Nat.digits 36 1367).length ≤ 64 ∧
    (∀ fuel, (Nat.digits 36 1367).length ≤ fuel →
      ¬ encode_loop fuel 36 ⟨1367, [], 0, 100⟩ = .error .OutOfFuel) ∧
    (∀ fuel, (Nat.digits 36 1367).length ≤ fuel →
      (∃ t, encode_loop fuel 36 ⟨1367, [], 0, 100⟩ = .ok t ∧
        t.number = 0 ∧ t.length = (Nat.digits 36 1367).length) ∨
      (36 < 36 ∧ encode_loop fuel 36 ⟨1367, [], 0, 100⟩ = .error .OutOfBounds)) ∧
    (∀ fuel t, encode_loop fuel 36 ⟨1367, [], 0, 100⟩ = .ok t →
      t.number = 0 ∧ t.length = (Nat.digits 36 1367).length) ∧
    (36 ≤ 36 → ∀ fuel,
      ((Nat.digits 36 1367).length ≤ fuel →
        ∃ t, encode_loop fuel 36 ⟨1367, [], 0, 100⟩ = .ok t ∧
          t.number = 0 ∧ t.length = (Nat.digits 36 1367).length) ∧
      (fuel < (Nat.digits 36 1367).length →
        encode_loop fuel 36 ⟨1367, [], 0, 100⟩ = .error .OutOfFuel)) :=
  decimal_to_base_loop_terminates 1367 36 (by decide) (by decide)

/-- C1, as stated, fails when the numeral is worth `2 ^ 64` or more. The
17-glyph numeral "10000000000000001" is valid in base 16, has no leading '0'
and is worth `2 ^ 64 + 1`; it decodes to 1, which is not 0, and 1 encodes to
"1", not to the numeral. -/
theorem round_trip_counterexample :
    validate_number (some "10000000000000001".toList) 16 = .ok () ∧
    positional_value 16 "10000000000000001".toList = 2 ^ 64 + 1 ∧
    convert_to_decimal (some "10000000000000001".toList) 16 = .ok 1 ∧
    decimal_to_base 64 1 16 = .ok "1".toList ∧
    "10000000000000001".toList.dropWhile (fun c => c == '0') =
      "10000000000000001".toList ∧
    ¬ decimal_to_base 64 1 16 =
      .ok ("10000000000000001".toList.dropWhile (fun c => c == '0')) := by
  decide!

/-- C1, amended. For a base from 2 to 36 and a numeral that passes
`validate_number`, is worth less than `2 ^ 64` and does not decode to 0,
decoding succeeds and encoding the decoded value in the same base gives the
numeral without its leading '0' glyphs. -/
theorem round_trip (s : List Char) (base fuel : Nat) (hb2 : 2 ≤ base) (_hb36 : base ≤ 36)
    (hv : validate_number (some s) base = .ok ())
    (hsmall : positional_value base s < 2 ^ 64)
    (_hnz : ¬ convert_to_decimal (some s) base = .ok 0)
    (hf : 64 ≤ fuel) :
    ∃ v, convert_to_decimal (some s) base = .ok v ∧
      decimal_to_base fuel v base = .ok (s.dropWhile (fun c => c == '0')) :=
  ⟨positional_value base s, round_trip_of_small base hb2 s hv hsmall fuel hf⟩

/-- C1, amended, at "00ABC" in base 16. -/
theorem round_trip_witness :
    ∃ v, convert_to_decimal (some "00ABC".toList) 16 = .ok v ∧
      decimal_to_base 64 v 16 = .ok ("00ABC".toList.dropWhile (fun c => c == '0')) :=
  round_trip "00ABC".toList 16 64 (by decide) (by decide) (by decide!) (by decide!)
    (by decide!) (by decide)

/-! ## The encoder outside bases 2 to 36, and its buffer -/

theorem encode_loop_base_one (fuel : Nat) (s : EncState) (h : s.number ≠ 0) :
    encode_loop fuel 1 s = .error .OutOfFuel := by
  induction fuel generalizing s with
  | zero => exact encode_loop_out 1 s h
  | succ fuel ih =>
    have hr : allowed_chars[s.number % 1]? = some '0' := by
      rw [Nat.mod_one]
      rfl
    rw [encode_loop_step fuel 1 s h (by decide) '0' hr]
    apply ih
    simpa using h

theorem loop_iterations_base_one (fuel number length : Nat) (h : number ≠ 0) :
    loop_iterations fuel 1 number length = .error .OutOfFuel := by
  have key := loop_iterations_eq_encode_loop fuel 1 ⟨number, [], length, 100⟩
  rw [encode_loop_base_one fuel _ h] at key
  exact key

theorem encode_loop_alloc (base : Nat) (hb : 2 ≤ base) (fuel : Nat) (s t : EncState)
    (h : encode_loop fuel base s = .ok t)
    (hroom : s.length + (Nat.digits base s.number).length < s.allocated_space) :
    t.allocated_space = s.allocated_space := by
  induction fuel generalizing s with
  | zero =>
    by_cases hn : s.number = 0
    · rw [encode_loop_done _ _ _ hn] at h
      simp only [Except.ok.injEq] at h
      rw [h]
    · rw [encode_loop_out _ _ hn] at h
      simp at h
  | succ fuel ih =>
    by_cases hn : s.number = 0
    · rw [encode_loop_done _ _ _ hn] at h
      simp only [Except.ok.injEq] at h
      rw [h]
    · have hd := Nat.digits_def' (show 1 < base by omega) (Nat.pos_of_ne_zero hn)
      rw [hd, List.length_cons] at hroom
      cases hr : allowed_chars[s.number % base]? with
      | none =>
        rw [encode_loop_oob _ _ _ hn (by omega) hr] at h
        simp at h
      | some glyph =>
        rw [encode_loop_step fuel base s hn (by omega) glyph hr] at h
        have hno : ¬ s.length + 1 ≥ s.allocated_space := by omega
        simp only [hno, if_false] at h
        exact ih (⟨s.number / base, s.reversed ++ [glyph], s.length + 1,
          s.allocated_space⟩ : EncState) h (by simp only; omega)

theorem glyph_of_mem_take (base r : Nat) (hr : r < base) (hr36 : r < 36) :
    glyph_of r ∈ allowed_chars.take base := by
  rw [List.mem_iff_getElem?]
  exact ⟨r, by rw [List.getElem?_take_of_lt hr]; exact lookup_of_lt r hr36⟩

theorem encoded_valid (base : Nat) (hb : 2 ≤ base) (hb36 : base ≤ 36) (number : Nat) :
    validate_number (some ((Nat.digits base number).reverse.map glyph_of)) base = .ok () := by
  rw [validate_number_eq]
  simp only [Nat.not_lt.mpr hb36, if_false]
  rw [validate_chars_ok_iff]
  intro c hc
  obtain ⟨r, hr, rfl⟩ := List.mem_map.mp hc
  have hlt : r < base := Nat.digits_lt_base (by omega) (List.mem_reverse.mp hr)
  exact glyph_of_mem_take base r hlt (by omega)

theorem decode_encoded (base : Nat) (hb : 2 ≤ base) (hb36 : base ≤ 36) (number : Nat)
    (hn : number < 2 ^ 64) :
    convert_to_decimal (some ((Nat.digits base number).reverse.map glyph_of)) base =
      .ok number := by
  rw [convert_to_decimal_eq base _ (encoded_valid base hb hb36 number), positional_value_eq,
    ← List.map_reverse, List.reverse_reverse, List.map_map]
  have hid : (Nat.digits base number).map (glyph_index ∘ glyph_of) =
      (Nat.digits base number).map id :=
    List.map_congr_left (fun r hr =>
      glyph_index_glyph_of r (by have := Nat.digits_lt_base (show 1 < base by omega) hr; omega))
  rw [hid, List.map_id, Nat.ofDigits_digits]
  unfold UINT64_SIZE
  rw [Nat.mod_eq_of_lt hn]

theorem decode_lt (base : Nat) (s : List Char) (v : Nat)
    (h : convert_to_decimal (some s) base = .ok v) : v < 2 ^ 64 := by
  unfold convert_to_decimal at h
  cases hv : validate_number (some s) base with
  | error e => rw [hv] at h; simp at h
  | ok u =>
    rw [hv] at h
    simp only [Except.ok.injEq] at h
    rw [← h]
    exact convert_loop_lt base s.reverse 0 1 (by unfold UINT64_SIZE; positivity)

/-! ## Claims about the encoder in bases 0 and 1, its buffer and its output -/

/-- C11. For a non-zero value, encoding in base 0 stops in the first iteration
of the loop at the division by zero, and encoding in base 1 never leaves the
loop: `number / 1 = number`, so an iteration hands on a state with the same
non-zero `number`, and the loop is still running at every bound on its
iterations. -/
theorem decimal_to_base_base_zero_one (number : Nat) (hn : number ≠ 0) :
    (∀ fuel, encode_loop (fuel + 1) 0 ⟨number, [], 0, 100⟩ = .error .DivByZero) ∧
    (∀ fuel, decimal_to_base (fuel + 1) number 0 = .error .DivByZero) ∧
    number / 1 = number ∧
    (∀ fuel (s : EncState), s.number ≠ 0 →
      encode_loop (fuel + 1) 1 s =
        encode_loop fuel 1 ⟨s.number, s.reversed ++ ['0'], s.length + 1,
          if s.length + 1 ≥ s.allocated_space then 2 * s.allocated_space
          else s.allocated_space⟩) ∧
    (∀ fuel, encode_loop fuel 1 ⟨number, [], 0, 100⟩ = .error .OutOfFuel) ∧
    (∀ fuel, decimal_to_base fuel number 1 = .error .OutOfFuel) ∧
    (∀ fuel, loop_iterations fuel 1 number 0 = .error .OutOfFuel) := by
  have h0 : ∀ fuel, encode_loop (fuel + 1) 0 ⟨number, [], 0, 100⟩ = .error .DivByZero :=
    fun fuel => encode_loop_div fuel _ hn
  have h1 : ∀ fuel, encode_loop fuel 1 ⟨number, [], 0, 100⟩ = .error .OutOfFuel :=
    fun fuel => encode_loop_base_one fuel _ hn
  refine ⟨h0, fun fuel => ?_, Nat.div_one number, fun fuel s hs => ?_, h1, fun fuel => ?_,
    fun fuel => loop_iterations_base_one fuel number 0 hn⟩
  · simp [decimal_to_base, h0 fuel]
  · have hr : allowed_chars[s.number % 1]? = some '0' := by
      rw [Nat.mod_one]
      rfl
    rw [encode_loop_step fuel 1 s hs (by decide) '0' hr, Nat.div_one]
  · simp [decimal_to_base, h1 fuel]

/-- C11 at the value 5. -/
theorem decimal_to_base_base_zero_one_witness :
    (∀ fuel, encode_loop (fuel + 1) 0 ⟨5, [], 0, 100⟩ = .error .DivByZero) ∧
    (∀ fuel, decimal_to_base (fuel + 1) 5 0 = .error .DivByZero) ∧
    5 / 1 = 5 ∧
    (∀ fuel (s : EncState), s.number ≠ 0 →
      encode_loop (fuel + 1) 1 s =
        encode_loop fuel 1 ⟨s.number, s.reversed ++ ['0'], s.length + 1,
          if s.length + 1 ≥ s.allocated_space then 2 * s.allocated_space
          else s.allocated_space⟩) ∧
    (∀ fuel, encode_loop fuel 1 ⟨5, [], 0, 100⟩ = .error .OutOfFuel) ∧
    (∀ fuel, decimal_to_base fuel 5 1 = .error .OutOfFuel) ∧
    (∀ fuel, loop_iterations fuel 1 5 0 = .error .OutOfFuel) :=
  decimal_to_base_base_zero_one 5 (by decide)

/-- C12. For a 64-bit value and a base from 2 to 36 the loop writes at most 64
glyphs: it ends with `length` at most 64, below the initial capacity of 100,
and with `allocated_space` still 100, so the doubling branch
`length >= allocated_space` is not taken; the string returned has at most 64
glyphs. -/
theorem decimal_to_base_buffer_headroom (number base fuel : Nat) (hb2 : 2 ≤ base)
    (hb36 : base ≤ 36) (hn : number < 2 ^ 64) (hf : 64 ≤ fuel) :
    ∃ t, encode_loop fuel base ⟨number, [], 0, 100⟩ = .ok t ∧
      t.length = (Nat.digits base number).length ∧
      t.reversed.length = t.length ∧
      t.length ≤ 64 ∧ t.length < 100 ∧
      t.allocated_space = 100 ∧
      ∃ out, decimal_to_base fuel number base = .ok out ∧ out.length ≤ 64 := by
  have hlen := digits_length_le_64 base hb2 number hn
  obtain ⟨a, ha⟩ := encode_loop_digits base hb2 hb36 fuel ⟨number, [], 0, 100⟩
    (Nat.le_trans hlen hf)
  have halloc := encode_loop_alloc base hb2 fuel _ _ ha (by simp only; omega)
  refine ⟨_, ha, by simp, by simp, by simp only; omega, by simp only; omega, halloc, ?_⟩
  rw [decimal_to_base_digits base hb2 hb36 fuel number (Nat.le_trans hlen hf)]
  exact ⟨_, rfl, by simpa using hlen⟩

/-- C12 at the largest 64-bit value in base 2. -/
theorem decimal_to_base_buffer_headroom_witness :
    ∃ t, encode_loop 64 2 ⟨2 ^ 64 - 1, [], 0, 100⟩ = .ok t ∧
      t.length = (Nat.digits 2 (2 ^ 64 - 1)).length ∧
      t.reversed.length = t.length ∧
      t.length ≤ 64 ∧ t.length < 100 ∧
      t.allocated_space = 100 ∧
      ∃ out, decimal_to_base 64 (2 ^ 64 - 1) 2 = .ok out ∧ out.length ≤ 64 :=
  decimal_to_base_buffer_headroom (2 ^ 64 - 1) 2 64 (by decide) (by decide) (by decide)
    (by decide)

/-- C13. For a 64-bit value and a base from 2 to 36, every remainder
`number % base` that indexes the table is below the base, hence below 36, and
the lookup finds a glyph; the encoder returns a string, and each glyph of that
string is among the first `base` glyphs, so the string passes
`validate_number` in that base. -/
theorem decimal_to_base_valid (number base fuel : Nat) (hb2 : 2 ≤ base) (hb36 : base ≤ 36)
    (hn : number < 2 ^ 64) (hf : 64 ≤ fuel) :
    (∀ n, n % base < base ∧ n % base < 36 ∧
      allowed_chars[n % base]? = some (glyph_of (n % base))) ∧
    ∃ out, decimal_to_base fuel number base = .ok out ∧
      (∀ c ∈ out, c ∈ allowed_chars.take base) ∧
      validate_number (some out) base = .ok () := by
  have hrem : ∀ n, n % base < 36 :=
    fun n => Nat.lt_of_lt_of_le (Nat.mod_lt n (by omega)) hb36
  refine ⟨fun n => ⟨Nat.mod_lt n (by omega), hrem n, lookup_of_lt _ (hrem n)⟩, ?_⟩
  have hv := encoded_valid base hb2 hb36 number
  refine ⟨_, decimal_to_base_digits base hb2 hb36 fuel number
    (Nat.le_trans (digits_length_le_64 base hb2 number hn) hf), ?_, hv⟩
  exact (valid_mem_allowed base _ hv).2

/-- C13 at the value 2748 in base 16. -/
theorem decimal_to_base_valid_witness :
    (∀ n, n % 16 < 16 ∧ n % 16 < 36 ∧
      allowed_chars[n % 16]? = some (glyph_of (n % 16))) ∧
    ∃ out, decimal_to_base 64 2748 16 = .ok out ∧
      (∀ c ∈ out, c ∈ allowed_chars.take 16) ∧
      validate_number (some out) 16 = .ok () :=
  decimal_to_base_valid 2748 16 64 (by decide) (by decide) (by decide) (by decide)

/-- C14. For a numeral that passes `validate_number` in the given base (which
is then at most 36), the scan of the whole table finds each glyph of the
numeral: the value found is the index of the glyph, it is below the base, and
it is not the sentinel `(size_t) -1`, which is what the scan gives for a
character outside the table such as 'a'. -/
theorem convert_to_decimal_lookup_found (s : List Char) (base : Nat)
    (hv : validate_number (some s) base = .ok ()) :
    base ≤ 36 ∧
    (∀ c ∈ s, decimal_value c < base ∧ ¬ decimal_value c = 2 ^ 64 - 1 ∧
      allowed_chars[decimal_value c]? = some c) ∧
    decimal_value 'a' = 2 ^ 64 - 1 := by
  obtain ⟨hb36, hs⟩ := valid_mem_allowed base s hv
  refine ⟨hb36, fun c hc => ?_, by decide!⟩
  have hmem := hs c hc
  have hidx := decimal_value_eq_index c (List.mem_of_mem_take hmem)
  have hlt := glyph_index_lt base c hmem
  rw [hidx]
  refine ⟨hlt, ?_, ?_⟩
  · have : (36 : Nat) < 2 ^ 64 - 1 := by decide
    omega
  · rw [lookup_of_lt _ (by omega), glyph_of_glyph_index base c hmem]

/-- C14 at "11Z" in base 36. -/
theorem convert_to_decimal_lookup_found_witness :
    36 ≤ 36 ∧
    (∀ c ∈ ['1', '1', 'Z'], decimal_value c < 36 ∧ ¬ decimal_value c = 2 ^ 64 - 1 ∧
      allowed_chars[decimal_value c]? = some c) ∧
    decimal_value 'a' = 2 ^ 64 - 1 :=
  convert_to_decimal_lookup_found ['1', '1', 'Z'] 36 (by decide)

/-- C15. Bases 0 and 1 are never reported as `InvalidBase`. In base 0 the
validator accepts the empty numeral only and rejects every non-empty numeral
with `InvalidDigit`; in base 1 it accepts exactly the numerals whose glyphs are
all '0'. -/
theorem validate_number_below_two (number : Option (List Char)) (s : List Char) :
    ¬ validate_number number 0 = .error .InvalidBase ∧
    ¬ validate_number number 1 = .error .InvalidBase ∧
    (validate_number number 0 = .ok () ↔ number = some []) ∧
    (s ≠ [] → validate_number (some s) 0 = .error .InvalidDigit) ∧
    (validate_number number 1 = .ok () ↔ ∃ t, number = some t ∧ ∀ c ∈ t, c = '0') := by
  have hcases : ∀ (b : Nat) (t : List Char), ¬ validate_chars b t = .error .InvalidBase := by
    intro b t h
    rcases validate_chars_cases b t with h' | h' <;> rw [h'] at h <;> simp at h
  have htake1 : allowed_chars.take 1 = ['0'] := by decide
  have htake0 : allowed_chars.take 0 = [] := rfl
  refine ⟨?_, ?_, ?_, ?_, ?_⟩
  · rw [validate_number_eq]
    cases number with
    | none => simp
    | some t => simpa using hcases 0 t
  · rw [validate_number_eq]
    cases number with
    | none => simp
    | some t => simpa using hcases 1 t
  · rw [validate_number_eq]
    cases number with
    | none => simp
    | some t =>
      simp only [show ¬ 36 < 0 by decide, if_false, validate_chars_ok_iff, htake0,
        List.not_mem_nil, Option.some.injEq]
      constructor
      · intro h
        cases t with
        | nil => rfl
        | cons c t => exact absurd (h c (List.mem_cons_self c t)) (by simp)
      · intro h
        simp [h]
  · intro hne
    rw [validate_number_eq]
    simp only [show ¬ 36 < 0 by decide, if_false]
    rcases validate_chars_cases 0 s with h | h
    · rw [validate_chars_ok_iff, htake0] at h
      cases s with
      | nil => exact absurd rfl hne
      | cons c t => exact absurd (h c (List.mem_cons_self c t)) (by simp)
    · exact h
  · rw [validate_number_eq]
    cases number with
    | none => simp
    | some t =>
      simp only [show ¬ 36 < 1 by decide, if_false, validate_chars_ok_iff, htake1,
        List.mem_singleton, Option.some.injEq, exists_eq_left']

/-! ## Encoding followed by decoding -/

theorem convert_base_of_valid (fuel : Nat) (s : List Char) (orig_base new_base : Nat)
    (hv : validate_number (some s) orig_base = .ok ()) :
    convert_base fuel (some s) orig_base new_base =
      decimal_to_base fuel (positional_value orig_base s % UINT64_SIZE) new_base := by
  simp only [convert_base, hv, convert_to_decimal_eq orig_base s hv]

theorem glyph_of_ne_zero (d : Nat) (hd : d ≠ 0) (hd36 : d < 36) : glyph_of d ≠ '0' := by
  intro h
  have h1 := glyph_index_glyph_of d hd36
  rw [h] at h1
  have h2 : glyph_index '0' = 0 := by decide
  omega

theorem positional_value_zero_cons (base : Nat) (s : List Char) :
    positional_value base ('0' :: s) = positional_value base s := by
  have hz : glyph_index '0' = 0 := by decide
  rw [positional_value_eq, positional_value_eq, List.reverse_cons, List.map_append,
    Nat.ofDigits_append]
  simp [hz]

/-! ## Claims about round trips, composition and leading zeros -/

/-- C16. For a 64-bit value `v`, 0 included (its encoding is the empty string),
and a base from 2 to 36, the encoder returns a string and the decoder, given
that string in the same base, returns `v`; hence two 64-bit values with the
same encoding are equal. -/
theorem encode_decode_round_trip (v base fuel : Nat) (hb2 : 2 ≤ base) (hb36 : base ≤ 36)
    (hn : v < 2 ^ 64) (hf : 64 ≤ fuel) :
    (∃ out, decimal_to_base fuel v base = .ok out ∧
      convert_to_decimal (some out) base = .ok v) ∧
    decimal_to_base fuel 0 base = .ok [] ∧
    convert_to_decimal (some []) base = .ok 0 ∧
    (∀ w, w < 2 ^ 64 → decimal_to_base fuel v base = decimal_to_base fuel w base →
      v = w) := by
  have henc : ∀ n, n < 2 ^ 64 → decimal_to_base fuel n base =
      .ok ((Nat.digits base n).reverse.map glyph_of) := fun n hlt =>
    decimal_to_base_digits base hb2 hb36 fuel n
      (Nat.le_trans (digits_length_le_64 base hb2 n hlt) hf)
  refine ⟨⟨_, henc v hn, decode_encoded base hb2 hb36 v hn⟩, ?_, ?_, fun w hw heq => ?_⟩
  · simpa using henc 0 (by positivity)
  · simpa using decode_encoded base hb2 hb36 0 (by positivity)
  · rw [henc v hn, henc w hw] at heq
    simp only [Except.ok.injEq] at heq
    have h1 := decode_encoded base hb2 hb36 v hn
    rw [heq, decode_encoded base hb2 hb36 w hw] at h1
    simp only [Except.ok.injEq] at h1
    exact h1.symm

/-- C16 at the value 1367 in base 36. -/
theorem encode_decode_round_trip_witness :
    (∃ out, decimal_to_base 64 1367 36 = .ok out ∧
      convert_to_decimal (some out) 36 = .ok 1367) ∧
    decimal_to_base 64 0 36 = .ok [] ∧
    convert_to_decimal (some []) 36 = .ok 0 ∧
    (∀ w, w < 2 ^ 64 → decimal_to_base 64 1367 36 = decimal_to_base 64 w 36 →
      1367 = w) :=
  encode_decode_round_trip 1367 36 64 (by decide) (by decide) (by decide) (by decide)

/-- C17. For a numeral valid in a base `b1` of at most 36 and bases `b2`, `b3`
from 2 to 36, converting from `b1` to `b2` and the result from `b2` to `b3`
gives the string that converting from `b1` to `b3` gives. -/
theorem convert_base_compose (s : List Char) (b1 b2 b3 fuel : Nat) (_hb1 : b1 ≤ 36)
    (hv : validate_number (some s) b1 = .ok ())
    (hb2 : 2 ≤ b2 ∧ b2 ≤ 36) (hb3 : 2 ≤ b3 ∧ b3 ≤ 36) (hf : 64 ≤ fuel) :
    ∃ mid out, convert_base fuel (some s) b1 b2 = .ok mid ∧
      convert_base fuel (some s) b1 b3 = .ok out ∧
      convert_base fuel (some mid) b2 b3 = .ok out := by
  have hlt : positional_value b1 s % UINT64_SIZE < 2 ^ 64 := by
    unfold UINT64_SIZE
    exact Nat.mod_lt _ (by positivity)
  have henc : ∀ b, 2 ≤ b ∧ b ≤ 36 →
      decimal_to_base fuel (positional_value b1 s % UINT64_SIZE) b =
        .ok ((Nat.digits b (positional_value b1 s % UINT64_SIZE)).reverse.map glyph_of) :=
    fun b hb => decimal_to_base_digits b hb.1 hb.2 fuel _
      (Nat.le_trans (digits_length_le_64 b hb.1 _ hlt) hf)
  refine ⟨(Nat.digits b2 (positional_value b1 s % UINT64_SIZE)).reverse.map glyph_of,
    (Nat.digits b3 (positional_value b1 s % UINT64_SIZE)).reverse.map glyph_of, ?_, ?_, ?_⟩
  · rw [convert_base_of_valid fuel s b1 b2 hv, henc b2 hb2]
  · rw [convert_base_of_valid fuel s b1 b3 hv, henc b3 hb3]
  · have hmid := decode_encoded b2 hb2.1 hb2.2 _ hlt
    simp only [convert_base, encoded_valid b2 hb2.1 hb2.2, hmid]
    exact henc b3 hb3

/-- C17 at "11Z" from base 36 through base 2 to base 16. -/
theorem convert_base_compose_witness :
    ∃ mid out, convert_base 64 (some "11Z".toList) 36 2 = .ok mid ∧
      convert_base 64 (some "11Z".toList) 36 16 = .ok out ∧
      convert_base 64 (some mid) 2 16 = .ok out :=
  convert_base_compose "11Z".toList 36 2 16 64 (by decide) (by decide)
    ⟨by decide, by decide⟩ ⟨by decide, by decide⟩ (by decide)

/-- C18. In every base of at most 36 the empty string passes
`validate_number` and decodes to 0, and converting it to any base, under any
bound on the iterations, gives the empty string. -/
theorem empty_numeral (base : Nat) (hb : base ≤ 36) :
    validate_number (some []) base = .ok () ∧
    convert_to_decimal (some []) base = .ok 0 ∧
    (∀ fuel new_base, convert_base fuel (some []) base new_base = .ok []) := by
  have hv : validate_number (some []) base = .ok () := by
    rw [validate_number_eq]
    simp [Nat.not_lt.mpr hb, validate_chars]
  have hd : convert_to_decimal (some []) base = .ok 0 := by
    simp [convert_to_decimal, hv, convert_loop]
  refine ⟨hv, hd, fun fuel new_base => ?_⟩
  have h0 : encode_loop fuel new_base ⟨0, [], 0, 100⟩ = .ok ⟨0, [], 0, 100⟩ :=
    encode_loop_done fuel new_base _ rfl
  simp [convert_base, hv, hd, decimal_to_base, h0, reverse_copy]

/-- C18 at base 10. -/
theorem empty_numeral_witness :
    validate_number (some []) 10 = .ok () ∧
    convert_to_decimal (some []) 10 = .ok 0 ∧
    (∀ fuel new_base, convert_base fuel (some []) 10 new_base = .ok []) :=
  empty_numeral 10 (by decide)

/-- C19. For a non-zero 64-bit value and a base from 2 to 36 the encoder
returns a non-empty string whose first glyph is not '0'. -/
theorem decimal_to_base_no_leading_zero (v base fuel : Nat) (hb2 : 2 ≤ base)
    (hb36 : base ≤ 36) (hn : v < 2 ^ 64) (hnz : v ≠ 0) (hf : 64 ≤ fuel) :
    ∃ c rest, decimal_to_base fuel v base = .ok (c :: rest) ∧ c ≠ '0' := by
  have hne : Nat.digits base v ≠ [] := Nat.digits_ne_nil_iff_ne_zero.mpr hnz
  have hlast := Nat.getLast_digit_ne_zero base hnz
  have hlast_lt : (Nat.digits base v).getLast hne < base :=
    Nat.digits_lt_base (by omega) (List.getLast_mem hne)
  refine ⟨glyph_of ((Nat.digits base v).getLast hne),
    (Nat.digits base v).dropLast.reverse.map glyph_of, ?_,
    glyph_of_ne_zero _ hlast (by omega)⟩
  rw [decimal_to_base_digits base hb2 hb36 fuel v
    (Nat.le_trans (digits_length_le_64 base hb2 v hn) hf)]
  conv_lhs => rw [← List.dropLast_append_getLast hne]
  simp

/-- C19 at the value 5 in base 2. -/
theorem decimal_to_base_no_leading_zero_witness :
    ∃ c rest, decimal_to_base 64 5 2 = .ok (c :: rest) ∧ c ≠ '0' :=
  decimal_to_base_no_leading_zero 5 2 64 (by decide) (by decide) (by decide) (by decide)
    (by decide)

/-- C20. For a base from 1 to 36 and a numeral that passes `validate_number`,
the numeral with a '0' put in front passes too and decodes to the same value,
whether or not the value wraps modulo `2 ^ 64`. -/
theorem convert_to_decimal_leading_zero (s : List Char) (base : Nat) (hb1 : 1 ≤ base)
    (_hb36 : base ≤ 36) (hv : validate_number (some s) base = .ok ()) :
    validate_number (some ('0' :: s)) base = .ok () ∧
    ∃ v, convert_to_decimal (some s) base = .ok v ∧
      convert_to_decimal (some ('0' :: s)) base = .ok v := by
  obtain ⟨hb36, hs⟩ := valid_mem_allowed base s hv
  have hzero : '0' ∈ allowed_chars.take base := glyph_of_mem_take base 0 (by omega) (by decide)
  have hv0 : validate_number (some ('0' :: s)) base = .ok () := by
    rw [validate_number_eq]
    simp only [Nat.not_lt.mpr hb36, if_false]
    rw [validate_chars_ok_iff]
    intro c hc
    rcases List.mem_cons.mp hc with h | h
    · rw [h]; exact hzero
    · exact hs c h
  refine ⟨hv0, _, convert_to_decimal_eq base s hv, ?_⟩
  rw [convert_to_decimal_eq base _ hv0, positional_value_zero_cons]

/-- C20 at "10000000000000001" in base 16, worth `2 ^ 64 + 1`. -/
theorem convert_to_decimal_leading_zero_witness :
    validate_number (some ('0' :: "10000000000000001".toList)) 16 = .ok () ∧
    ∃ v, convert_to_decimal (some "10000000000000001".toList) 16 = .ok v ∧
      convert_to_decimal (some ('0' :: "10000000000000001".toList)) 16 = .ok v :=
  convert_to_decimal_leading_zero "10000000000000001".toList 16 (by decide) (by decide)
    (by decide!)

end NumberRep
